import Mathlib

/-!
Shallow embedding of the gosaic tile-matching and assembly engine
(`gosaic.go`), together with proofs about its behaviour.

Pixel samples are modelled at the precision of Go's `color.Color.RGBA()`
method: each channel is a natural number in `0..0xffff`.  Floating point
distances are modelled as exact rationals.  Fallible operations return
`Except`.
-/

namespace Gosaic

/-- Pixel as returned by Go's `Color.RGBA()`: alpha-premultiplied 16-bit
channel samples. -/
structure Pix where
  r : ℕ
  g : ℕ
  b : ℕ
  a : ℕ
deriving DecidableEq, Repr

/-- Go's `image.Rectangle`: min and max corners with integer coordinates. -/
structure Rectangle where
  minX : ℤ
  minY : ℤ
  maxX : ℤ
  maxY : ℤ
deriving DecidableEq, Repr

/-- Go's `image.Rect(x0, y0, x1, y1)` constructor, which canonicalises by
swapping coordinates so that min ≤ max. -/
def mkRect (x0 y0 x1 y1 : ℤ) : Rectangle :=
  { minX := min x0 x1, minY := min y0 y1, maxX := max x0 x1, maxY := max y0 y1 }

/-- Width of a rectangle, Go's `Rectangle.Dx`. -/
def Rectangle.Dx (r : Rectangle) : ℤ := r.maxX - r.minX

/-- Height of a rectangle, Go's `Rectangle.Dy`. -/
def Rectangle.Dy (r : Rectangle) : ℤ := r.maxY - r.minY

/-- Go's `Rectangle.Empty`. -/
def Rectangle.empty (r : Rectangle) : Bool := r.maxX ≤ r.minX || r.maxY ≤ r.minY

/-- Membership of a point in a rectangle (Go's `Point.In`). -/
def Rectangle.Mem (r : Rectangle) (x y : ℤ) : Prop :=
  r.minX ≤ x ∧ x < r.maxX ∧ r.minY ≤ y ∧ y < r.maxY

instance (r : Rectangle) (x y : ℤ) : Decidable (r.Mem x y) :=
  inferInstanceAs (Decidable (r.minX ≤ x ∧ x < r.maxX ∧ r.minY ≤ y ∧ y < r.maxY))

/-- Go's `Rectangle.Intersect`: componentwise max of mins and min of maxes,
returning the zero rectangle when the result is empty. -/
def Rectangle.inter (r s : Rectangle) : Rectangle :=
  let t : Rectangle :=
    { minX := max r.minX s.minX, minY := max r.minY s.minY
      maxX := min r.maxX s.maxX, maxY := min r.maxY s.maxY }
  if t.empty then { minX := 0, minY := 0, maxX := 0, maxY := 0 } else t

/-- Go's `Rectangle.Add`: translate a rectangle by a vector. -/
def Rectangle.add (r : Rectangle) (dx dy : ℤ) : Rectangle :=
  { minX := r.minX + dx, minY := r.minY + dy, maxX := r.maxX + dx, maxY := r.maxY + dy }

/-- A pixel grid: the parts of Go's `image.Image` / the `HasAt` interface the
engine reads.  `model` is an opaque tag standing for the color model. -/
structure Img where
  model : ℕ
  bounds : Rectangle
  At : ℤ → ℤ → Pix

/-- Well-formed image: every sample respects the `RGBA()` contract of staying
within `0..0xffff` on every channel. -/
def Img.Wf (img : Img) : Prop :=
  ∀ x y : ℤ, (img.At x y).r ≤ 0xffff ∧ (img.At x y).g ≤ 0xffff ∧
    (img.At x y).b ≤ 0xffff ∧ (img.At x y).a ≤ 0xffff

/-- Go method `(g *Gosaic) diff(a, b uint32) int32`: absolute difference of
two channel samples. -/
def diff (a b : ℕ) : ℕ := if a > b then a - b else b - a

/-- The accumulated sum computed by the double loop of `Difference`:
channelwise absolute differences of the R, G, B samples over all pixels. -/
def diffSum (img1 img2 : Img) : ℕ :=
  ∑ x ∈ Finset.range img1.bounds.Dx.toNat, ∑ y ∈ Finset.range img1.bounds.Dy.toNat,
    (diff (img1.At (x + img1.bounds.minX) (y + img1.bounds.minY)).r
          (img2.At (x + img2.bounds.minX) (y + img2.bounds.minY)).r +
     diff (img1.At (x + img1.bounds.minX) (y + img1.bounds.minY)).g
          (img2.At (x + img2.bounds.minX) (y + img2.bounds.minY)).g +
     diff (img1.At (x + img1.bounds.minX) (y + img1.bounds.minY)).b
          (img2.At (x + img2.bounds.minX) (y + img2.bounds.minY)).b)

/-- Go method `(g *Gosaic) Difference(img1, img2 HasAt) (float64, error)`:
normalized channelwise Manhattan distance, failing when the color models or
the bounding dimensions differ. -/
def Difference (img1 img2 : Img) : Except String ℚ :=
  if img1.model ≠ img2.model then
    .error "different color models"
  else if img1.bounds.Dx ≠ img2.bounds.Dx ∨ img1.bounds.Dy ≠ img2.bounds.Dy then
    .error "bounds are not identical"
  else
    let nPixels : ℤ := img1.bounds.Dx * img1.bounds.Dy
    .ok ((diffSum img1 img2 : ℚ) / ((nPixels : ℚ) * 0xffff * 3))

/-- Distance formula exactly as the spec words it (spec section 4.1): for every
pixel sum the absolute per-channel deltas, accumulate over all pixels, divide
by pixelCount times maxChannelValue times 3. -/
def specManhattan (img1 img2 : Img) : ℚ :=
  (((∑ x ∈ Finset.range img1.bounds.Dx.toNat, ∑ y ∈ Finset.range img1.bounds.Dy.toNat,
    (|((img1.At (x + img1.bounds.minX) (y + img1.bounds.minY)).r : ℤ) -
      ((img2.At (x + img2.bounds.minX) (y + img2.bounds.minY)).r : ℤ)| +
     |((img1.At (x + img1.bounds.minX) (y + img1.bounds.minY)).g : ℤ) -
      ((img2.At (x + img2.bounds.minX) (y + img2.bounds.minY)).g : ℤ)| +
     |((img1.At (x + img1.bounds.minX) (y + img1.bounds.minY)).b : ℤ) -
      ((img2.At (x + img2.bounds.minX) (y + img2.bounds.minY)).b : ℤ)|)) : ℤ) : ℚ) /
  (((img1.bounds.Dx * img1.bounds.Dy : ℤ) : ℚ) * 0xffff * 3)

/-- Two images are pixel-identical within input precision: same color model,
same dimensions, and equal R, G, B samples at every corresponding pixel. -/
def PixelIdentical (img1 img2 : Img) : Prop :=
  img1.model = img2.model ∧ img1.bounds.Dx = img2.bounds.Dx ∧
  img1.bounds.Dy = img2.bounds.Dy ∧
  ∀ x < img1.bounds.Dx.toNat, ∀ y < img1.bounds.Dy.toNat,
    (img1.At (x + img1.bounds.minX) (y + img1.bounds.minY)).r =
      (img2.At (x + img2.bounds.minX) (y + img2.bounds.minY)).r ∧
    (img1.At (x + img1.bounds.minX) (y + img1.bounds.minY)).g =
      (img2.At (x + img2.bounds.minX) (y + img2.bounds.minY)).g ∧
    (img1.At (x + img1.bounds.minX) (y + img1.bounds.minY)).b =
      (img2.At (x + img2.bounds.minX) (y + img2.bounds.minY)).b

lemma diff_comm (a b : ℕ) : diff a b = diff b a := by
  unfold diff
  split <;> split <;> omega

lemma diff_self (a : ℕ) : diff a a = 0 := by simp [diff]

lemma diff_eq_zero_iff (a b : ℕ) : diff a b = 0 ↔ a = b := by
  unfold diff; split <;> omega

lemma diff_le (a b : ℕ) (ha : a ≤ 0xffff) (hb : b ≤ 0xffff) : diff a b ≤ 0xffff := by
  unfold diff; split <;> omega

lemma diff_eq_natAbs (a b : ℕ) : (diff a b : ℤ) = |(a : ℤ) - (b : ℤ)| := by
  unfold diff; split
  · rw [abs_of_nonneg (by omega)]; omega
  · rw [abs_of_nonpos (by omega)]; omega

lemma diffSum_comm (img1 img2 : Img)
    (hx : img1.bounds.Dx = img2.bounds.Dx) (hy : img1.bounds.Dy = img2.bounds.Dy) :
    diffSum img1 img2 = diffSum img2 img1 := by
  unfold diffSum
  rw [hx, hy]
  refine Finset.sum_congr rfl fun x _ => Finset.sum_congr rfl fun y _ => ?_
  rw [diff_comm, diff_comm (Pix.g _), diff_comm (Pix.b _)]

lemma diffSum_self (img : Img) : diffSum img img = 0 := by
  unfold diffSum
  refine Finset.sum_eq_zero fun x _ => Finset.sum_eq_zero fun y _ => ?_
  simp [diff_self]

lemma diffSum_le (img1 img2 : Img) (h1 : img1.Wf) (h2 : img2.Wf) :
    diffSum img1 img2 ≤ img1.bounds.Dx.toNat * img1.bounds.Dy.toNat * (3 * 0xffff) := by
  unfold diffSum
  calc
    _ ≤ ∑ _x ∈ Finset.range img1.bounds.Dx.toNat, ∑ _y ∈ Finset.range img1.bounds.Dy.toNat,
        (3 * 0xffff) := by
      refine Finset.sum_le_sum fun x _ => Finset.sum_le_sum fun y _ => ?_
      have a1 := h1 (x + img1.bounds.minX) (y + img1.bounds.minY)
      have a2 := h2 (x + img2.bounds.minX) (y + img2.bounds.minY)
      have d1 := diff_le _ _ a1.1 a2.1
      have d2 := diff_le _ _ a1.2.1 a2.2.1
      have d3 := diff_le _ _ a1.2.2.1 a2.2.2.1
      omega
    _ = img1.bounds.Dx.toNat * img1.bounds.Dy.toNat * (3 * 0xffff) := by
      simp [Finset.sum_const, mul_assoc]

lemma diffSum_eq_zero_iff (img1 img2 : Img) :
    diffSum img1 img2 = 0 ↔
    ∀ x < img1.bounds.Dx.toNat, ∀ y < img1.bounds.Dy.toNat,
      (img1.At (x + img1.bounds.minX) (y + img1.bounds.minY)).r =
        (img2.At (x + img2.bounds.minX) (y + img2.bounds.minY)).r ∧
      (img1.At (x + img1.bounds.minX) (y + img1.bounds.minY)).g =
        (img2.At (x + img2.bounds.minX) (y + img2.bounds.minY)).g ∧
      (img1.At (x + img1.bounds.minX) (y + img1.bounds.minY)).b =
        (img2.At (x + img2.bounds.minX) (y + img2.bounds.minY)).b := by
  unfold diffSum
  rw [Finset.sum_eq_zero_iff]
  constructor
  · intro h x hx y hy
    have hx' : x ∈ Finset.range img1.bounds.Dx.toNat := Finset.mem_range.mpr hx
    have := (Finset.sum_eq_zero_iff).mp (h x hx') y (Finset.mem_range.mpr hy)
    refine ⟨(diff_eq_zero_iff _ _).mp ?_, (diff_eq_zero_iff _ _).mp ?_,
      (diff_eq_zero_iff _ _).mp ?_⟩ <;> omega
  · intro h x hx
    refine Finset.sum_eq_zero fun y hy => ?_
    obtain ⟨h1, h2, h3⟩ := h x (Finset.mem_range.mp hx) y (Finset.mem_range.mp hy)
    simp [h1, h2, h3, diff_self]

/-- When the checks pass, `Difference` returns the normalized sum. -/
lemma Difference_ok (img1 img2 : Img) (hm : img1.model = img2.model)
    (hx : img1.bounds.Dx = img2.bounds.Dx) (hy : img1.bounds.Dy = img2.bounds.Dy) :
    Difference img1 img2 =
      .ok ((diffSum img1 img2 : ℚ) /
        (((img1.bounds.Dx * img1.bounds.Dy : ℤ) : ℚ) * 0xffff * 3)) := by
  unfold Difference
  simp [hm, hx, hy]

lemma Difference_ok_nonneg (img1 img2 : Img) (d : ℚ)
    (h : Difference img1 img2 = .ok d) : 0 ≤ d := by
  unfold Difference at h
  split at h
  · exact absurd h (by simp)
  split at h
  · exact absurd h (by simp)
  simp only [Except.ok.injEq] at h
  subst h
  rcases le_or_lt img1.bounds.Dx 0 with hx | hx
  · have : img1.bounds.Dx.toNat = 0 := Int.toNat_of_nonpos hx
    simp [diffSum, this]
  rcases le_or_lt img1.bounds.Dy 0 with hy | hy
  · have : img1.bounds.Dy.toNat = 0 := Int.toNat_of_nonpos hy
    simp [diffSum, this]
  · apply div_nonneg (by positivity)
    have : (0 : ℚ) < ((img1.bounds.Dx * img1.bounds.Dy : ℤ) : ℚ) := by
      exact_mod_cast mul_pos hx hy
    positivity

lemma Difference_ok_le_one (img1 img2 : Img) (d : ℚ)
    (h1 : img1.Wf) (h2 : img2.Wf)
    (h : Difference img1 img2 = .ok d) : d ≤ 1 := by
  unfold Difference at h
  split at h
  · exact absurd h (by simp)
  split at h
  · exact absurd h (by simp)
  simp only [Except.ok.injEq] at h
  subst h
  rcases le_or_lt img1.bounds.Dx 0 with hx | hx
  · have : img1.bounds.Dx.toNat = 0 := Int.toNat_of_nonpos hx
    simp [diffSum, this]
  rcases le_or_lt img1.bounds.Dy 0 with hy | hy
  · have : img1.bounds.Dy.toNat = 0 := Int.toNat_of_nonpos hy
    simp [diffSum, this]
  · have hD : (0 : ℚ) < ((img1.bounds.Dx * img1.bounds.Dy : ℤ) : ℚ) * 0xffff * 3 := by
      have : (0 : ℚ) < ((img1.bounds.Dx * img1.bounds.Dy : ℤ) : ℚ) := by
        exact_mod_cast mul_pos hx hy
      positivity
    rw [div_le_one hD]
    have hb := diffSum_le img1 img2 h1 h2
    have hcast : ((diffSum img1 img2 : ℕ) : ℚ) ≤
        ((img1.bounds.Dx.toNat * img1.bounds.Dy.toNat * (3 * 0xffff) : ℕ) : ℚ) := by
      exact_mod_cast hb
    refine hcast.trans (le_of_eq ?_)
    have ex : ((img1.bounds.Dx.toNat : ℤ) : ℚ) = ((img1.bounds.Dx : ℤ) : ℚ) := by
      exact_mod_cast congrArg (fun z : ℤ => (z : ℚ)) (Int.toNat_of_nonneg hx.le)
    have ey : ((img1.bounds.Dy.toNat : ℤ) : ℚ) = ((img1.bounds.Dy : ℤ) : ℚ) := by
      exact_mod_cast congrArg (fun z : ℤ => (z : ℚ)) (Int.toNat_of_nonneg hy.le)
    push_cast
    push_cast at ex ey
    rw [ex, ey]
    ring

lemma diffSum_int (img1 img2 : Img) :
    (diffSum img1 img2 : ℤ) =
    ∑ x ∈ Finset.range img1.bounds.Dx.toNat, ∑ y ∈ Finset.range img1.bounds.Dy.toNat,
      (|((img1.At (x + img1.bounds.minX) (y + img1.bounds.minY)).r : ℤ) -
        ((img2.At (x + img2.bounds.minX) (y + img2.bounds.minY)).r : ℤ)| +
       |((img1.At (x + img1.bounds.minX) (y + img1.bounds.minY)).g : ℤ) -
        ((img2.At (x + img2.bounds.minX) (y + img2.bounds.minY)).g : ℤ)| +
       |((img1.At (x + img1.bounds.minX) (y + img1.bounds.minY)).b : ℤ) -
        ((img2.At (x + img2.bounds.minX) (y + img2.bounds.minY)).b : ℤ)|) := by
  unfold diffSum
  push_cast
  refine Finset.sum_congr rfl fun x _ => Finset.sum_congr rfl fun y _ => ?_
  rw [diff_eq_natAbs, diff_eq_natAbs, diff_eq_natAbs]

lemma Difference_eq_specManhattan (img1 img2 : Img) (hm : img1.model = img2.model)
    (hx : img1.bounds.Dx = img2.bounds.Dx) (hy : img1.bounds.Dy = img2.bounds.Dy) :
    Difference img1 img2 = .ok (specManhattan img1 img2) := by
  rw [Difference_ok img1 img2 hm hx hy]
  unfold specManhattan
  rw [← diffSum_int]
  push_cast
  rfl

/-- C2: for every pair of pixel grids with identical color models and
dimensions, `Difference` succeeds and returns the sum over all pixels of the
absolute R, G, B deltas on full-precision 16-bit samples, divided by
(pixelCount * 0xffff * 3); for every pair whose color models differ or whose
bounding-box width or height differ, it returns an error. -/
theorem C2_difference_formula (A B : Img) :
    (A.model = B.model → A.bounds.Dx = B.bounds.Dx → A.bounds.Dy = B.bounds.Dy →
      Difference A B = .ok (specManhattan A B)) ∧
    ((A.model ≠ B.model ∨ A.bounds.Dx ≠ B.bounds.Dx ∨ A.bounds.Dy ≠ B.bounds.Dy) →
      ∃ e, Difference A B = .error e) := by
  constructor
  · exact fun hm hx hy => Difference_eq_specManhattan A B hm hx hy
  · intro h
    unfold Difference
    by_cases hm : A.model = B.model
    · rcases h with h | h | h
      · exact absurd hm h
      · exact ⟨"bounds are not identical", by simp [hm, h]⟩
      · exact ⟨"bounds are not identical", by simp [hm, h]⟩
    · exact ⟨"different color models", by simp [hm]⟩

/-- Constant-color image helper used for concrete inputs. -/
def constImg (p : Pix) (w h : ℕ) : Img :=
  { model := 0, bounds := mkRect 0 0 w h, At := fun _ _ => p }

lemma constImg_wf (p : Pix) (w h : ℕ) (h1 : p.r ≤ 0xffff) (h2 : p.g ≤ 0xffff)
    (h3 : p.b ≤ 0xffff) (h4 : p.a ≤ 0xffff) : (constImg p w h).Wf :=
  fun _ _ => ⟨h1, h2, h3, h4⟩

def whitePix : Pix := { r := 0xffff, g := 0xffff, b := 0xffff, a := 0xffff }

def blackPix : Pix := { r := 0, g := 0, b := 0, a := 0xffff }

def white1 : Img := constImg whitePix 1 1

def black1 : Img := constImg blackPix 1 1

/-- C2 witness at concrete inputs. -/
theorem C2_difference_formula_witness :
    Difference white1 black1 = .ok (specManhattan white1 black1) ∧
    ∃ e, Difference white1 (constImg whitePix 2 1) = .error e :=
  ⟨(C2_difference_formula white1 black1).1 rfl rfl rfl,
   (C2_difference_formula white1 (constImg whitePix 2 1)).2 (Or.inr (Or.inl (by decide)))⟩

/-- C4: for equal-shape, equal-color-model well-formed pixel grids,
`Difference` is symmetric, zero on identical inputs, lands in `[0, 1]`, and is
zero exactly when the grids are pixel-identical within input precision. -/
theorem C4_difference_metric (A B : Img) (hm : A.model = B.model)
    (hx : A.bounds.Dx = B.bounds.Dx) (hy : A.bounds.Dy = B.bounds.Dy)
    (hwa : A.Wf) (hwb : B.Wf) :
    ∃ d, Difference A B = .ok d ∧ Difference B A = .ok d ∧
      Difference A A = .ok 0 ∧ 0 ≤ d ∧ d ≤ 1 ∧ (d = 0 ↔ PixelIdentical A B) := by
  have hAB := Difference_ok A B hm hx hy
  refine ⟨_, hAB, ?_, ?_, Difference_ok_nonneg A B _ hAB,
    Difference_ok_le_one A B _ hwa hwb hAB, ?_⟩
  · rw [Difference_ok B A hm.symm hx.symm hy.symm,
      diffSum_comm B A hx.symm hy.symm, ← hx, ← hy]
  · rw [Difference_ok A A rfl rfl rfl, diffSum_self]
    norm_num
  · constructor
    · intro hd
      refine ⟨hm, hx, hy, ?_⟩
      rw [div_eq_zero_iff] at hd
      rcases hd with hd | hd
      · have hsum : diffSum A B = 0 := by exact_mod_cast hd
        exact (diffSum_eq_zero_iff A B).mp hsum
      · intro x hxlt y hylt
        exfalso
        have h3 : ((A.bounds.Dx * A.bounds.Dy : ℤ) : ℚ) = 0 := by
          rcases mul_eq_zero.mp hd with h9 | h9
          · rcases mul_eq_zero.mp h9 with h8 | h8
            · exact h8
            · norm_num at h8
          · norm_num at h9
        have h4 : A.bounds.Dx * A.bounds.Dy = 0 := by exact_mod_cast h3
        rcases mul_eq_zero.mp h4 with h5 | h5 <;> simp [h5] at hxlt hylt
    · rintro ⟨_, _, _, hpx⟩
      have hsum : diffSum A B = 0 := (diffSum_eq_zero_iff A B).mpr hpx
      rw [hsum]
      norm_num

def grayPix : Pix := { r := 0x8080, g := 0x8080, b := 0x8080, a := 0xffff }

/-- C4 witness at concrete inputs. -/
theorem C4_difference_metric_witness :
    ∃ d, Difference white1 (constImg grayPix 1 1) = .ok d ∧
      Difference (constImg grayPix 1 1) white1 = .ok d ∧
      Difference white1 white1 = .ok 0 ∧ 0 ≤ d ∧ d ≤ 1 ∧
      (d = 0 ↔ PixelIdentical white1 (constImg grayPix 1 1)) :=
  C4_difference_metric white1 (constImg grayPix 1 1) rfl rfl rfl
    (constImg_wf _ _ _ (by decide) (by decide) (by decide) (by decide))
    (constImg_wf _ _ _ (by decide) (by decide) (by decide) (by decide))

/-- Go struct `Tile`: identity, optional thumbnail pixels, mean color. -/
structure Tile where
  Filename : String
  Tiny : Option Img
  Average : ℚ

/-- The configuration knobs the matching engine reads. -/
structure Config where
  TileSize : ℕ
  CompareSize : ℕ
  CompareDist : ℚ
  Unique : Bool

/-- The zero `Tile{}` used to initialise `TileData.MinTile`. -/
def emptyTile : Tile := { Filename := "", Tiny := none, Average := 0 }

/-- The per-region fields of Go's `TileData` that the workers read: grid
coordinates, proxy mean color, comparison proxy image and the comparison
rectangle (`loadRect` leaves `Rect = image.Rect(0, 0, CompareSize,
CompareSize)` before the scan starts). -/
structure TileData where
  X : ℕ
  Y : ℕ
  Average : ℚ
  CompareImage : Img
  Rect : Rectangle

/-- The mutex-guarded reduction state shared by one region's workers:
`*MinDist`, `*MinTile`, and the corpus reference of the current winner
(modelled as its position in the corpus list). -/
structure MatchState where
  MinDist : ℚ
  MinTile : Tile
  MinIdx : Option ℕ

/-- Initial reduction state: `minDist := 1.0`, empty `MinTile`, no element
reference (`loadRect` lines 460-461). -/
def initState : MatchState := { MinDist := 1, MinTile := emptyTile, MinIdx := none }

/-- Go's `(*image.RGBA).SubImage`: restrict the bounds to the intersection,
sharing the pixels. -/
def subImage (img : Img) (r : Rectangle) : Img :=
  { img with bounds := Rectangle.inter r img.bounds }

/-- One iteration of the `tileWorker` loop body on a received tile reference
(`it` is the tile together with its position in the corpus): skip tiles with
no thumbnail, apply the mean-color prefilter, compute `Difference`, and under
the mutex replace the best match when the distance is strictly smaller.  The
boolean records whether the full distance computation was invoked. -/
def workerStep (cfg : Config) (td : TileData) (st : MatchState) (it : ℕ × Tile) :
    MatchState × Bool :=
  match it.2.Tiny with
  | none => (st, false)
  | some tiny =>
    if |it.2.Average - td.Average| > cfg.CompareDist then (st, false)
    else
      match Difference (subImage td.CompareImage td.Rect) tiny with
      | .error _ => (st, true)
      | .ok dist =>
        if dist < st.MinDist then
          ({ MinDist := dist, MinTile := it.2, MinIdx := some it.1 }, true)
        else (st, true)

/-- The region scan: stream every corpus tile (with its position, starting at
`i`) through the worker pool.  As the workers only interact through the
single guarded strictly-decreasing minimum update, the join of the pool is
modelled by folding the worker body over the corpus in scan order. -/
def runRegionAux (cfg : Config) (td : TileData) : MatchState → ℕ → List Tile → MatchState
  | st, _, [] => st
  | st, i, t :: ts => runRegionAux cfg td (workerStep cfg td st (i, t)).1 (i + 1) ts

/-- Reduction state after the worker pool for one region is joined. -/
def runRegion (cfg : Config) (td : TileData) (corpus : List Tile) : MatchState :=
  runRegionAux cfg td initState 0 corpus

/-- The distance a tile contributes to the scan, when it contributes one:
`none` when the thumbnail is missing, the prefilter rejects the tile, or
`Difference` fails. -/
def eligDist (cfg : Config) (td : TileData) (t : Tile) : Option ℚ :=
  match t.Tiny with
  | none => none
  | some tiny =>
    if |t.Average - td.Average| > cfg.CompareDist then none
    else
      match Difference (subImage td.CompareImage td.Rect) tiny with
      | .error _ => none
      | .ok dist => some dist

lemma runRegionAux_nil (cfg : Config) (td : TileData) (st : MatchState) (i : ℕ) :
    runRegionAux cfg td st i [] = st := rfl

lemma runRegionAux_cons (cfg : Config) (td : TileData) (st : MatchState) (i : ℕ)
    (t : Tile) (ts : List Tile) :
    runRegionAux cfg td st i (t :: ts) =
      runRegionAux cfg td (workerStep cfg td st (i, t)).1 (i + 1) ts := rfl

lemma workerStep_fst (cfg : Config) (td : TileData) (st : MatchState) (i : ℕ) (t : Tile) :
    (workerStep cfg td st (i, t)).1 =
      match eligDist cfg td t with
      | none => st
      | some d => if d < st.MinDist then
          { MinDist := d, MinTile := t, MinIdx := some i } else st := by
  unfold workerStep eligDist
  cases t.Tiny with
  | none => rfl
  | some tiny =>
    by_cases hp : |t.Average - td.Average| > cfg.CompareDist
    · simp [hp]
    · simp only [hp, if_false]
      cases Difference (subImage td.CompareImage td.Rect) tiny with
      | error e => rfl
      | ok d => by_cases hlt : d < st.MinDist <;> simp [hlt]

lemma eligDist_some (cfg : Config) (td : TileData) (t : Tile) (d : ℚ)
    (h : eligDist cfg td t = some d) :
    ∃ tiny, t.Tiny = some tiny ∧ |t.Average - td.Average| ≤ cfg.CompareDist ∧
      Difference (subImage td.CompareImage td.Rect) tiny = .ok d := by
  unfold eligDist at h
  split at h
  · exact absurd h (by simp)
  next tiny htin =>
    split at h
    · exact absurd h (by simp)
    next hp =>
      split at h
      · exact absurd h (by simp)
      next d0 heq =>
        simp only [Option.some.injEq] at h
        exact ⟨tiny, htin, le_of_not_lt hp, h ▸ heq⟩

lemma eligDist_nonneg (cfg : Config) (td : TileData) (t : Tile) (d : ℚ)
    (h : eligDist cfg td t = some d) : 0 ≤ d := by
  obtain ⟨tiny, _, _, hD⟩ := eligDist_some cfg td t d h
  exact Difference_ok_nonneg _ _ _ hD

lemma workerStep_minDist_le (cfg : Config) (td : TileData) (st : MatchState)
    (it : ℕ × Tile) : ((workerStep cfg td st it).1).MinDist ≤ st.MinDist := by
  obtain ⟨i, t⟩ := it
  rw [workerStep_fst]
  cases eligDist cfg td t with
  | none => exact le_refl _
  | some d =>
    simp only
    split
    · exact le_of_lt (by assumption)
    · exact le_refl _

lemma workerStep_strict (cfg : Config) (td : TileData) (st : MatchState)
    (it : ℕ × Tile) (h : (workerStep cfg td st it).1 ≠ st) :
    ((workerStep cfg td st it).1).MinDist < st.MinDist := by
  obtain ⟨i, t⟩ := it
  rw [workerStep_fst] at h ⊢
  cases hel : eligDist cfg td t with
  | none => simp [hel] at h
  | some d =>
    simp only [hel] at h ⊢
    by_cases hlt : d < st.MinDist
    · simp only [hlt, if_true]
    · exact absurd (by simp [hlt]) h

lemma runRegionAux_minDist_le (cfg : Config) (td : TileData) :
    ∀ (ts : List Tile) (st : MatchState) (i : ℕ),
      (runRegionAux cfg td st i ts).MinDist ≤ st.MinDist := by
  intro ts
  induction ts with
  | nil => intro st i; exact le_refl _
  | cons t ts ih =>
    intro st i
    rw [runRegionAux_cons]
    exact (ih _ (i + 1)).trans (workerStep_minDist_le cfg td st (i, t))

lemma runRegionAux_le_elig (cfg : Config) (td : TileData) :
    ∀ (ts : List Tile) (st : MatchState) (i : ℕ) (t : Tile) (d : ℚ),
      t ∈ ts → eligDist cfg td t = some d →
      (runRegionAux cfg td st i ts).MinDist ≤ d := by
  intro ts
  induction ts with
  | nil => intro st i t d h; exact absurd h (List.not_mem_nil t)
  | cons u us ih =>
    intro st i t d hmem helig
    rw [runRegionAux_cons]
    rcases List.mem_cons.mp hmem with rfl | hmem
    · refine (runRegionAux_minDist_le cfg td us _ (i + 1)).trans ?_
      rw [workerStep_fst, helig]
      simp only
      split
      · exact le_refl d
      · exact le_of_not_lt (by assumption)
    · exact ih _ (i + 1) t d hmem helig

lemma runRegionAux_provenance (cfg : Config) (td : TileData) :
    ∀ (ts : List Tile) (st : MatchState) (i : ℕ),
      runRegionAux cfg td st i ts = st ∨
      ∃ j t, ts.get? j = some t ∧
        (runRegionAux cfg td st i ts).MinTile = t ∧
        (runRegionAux cfg td st i ts).MinIdx = some (i + j) ∧
        eligDist cfg td t = some (runRegionAux cfg td st i ts).MinDist := by
  intro ts
  induction ts with
  | nil => intro st i; exact Or.inl rfl
  | cons u us ih =>
    intro st i
    rw [runRegionAux_cons]
    rcases ih (workerStep cfg td st (i, u)).1 (i + 1) with h | ⟨j, t, hget, hmt, hmi, he⟩
    · rw [h, workerStep_fst]
      cases hel : eligDist cfg td u with
      | none => exact Or.inl rfl
      | some d =>
        simp only
        by_cases hlt : d < st.MinDist
        · simp only [hlt, if_true]
          refine Or.inr ⟨0, u, rfl, rfl, by simp, by simpa using hel⟩
        · simp [hlt]
    · refine Or.inr ⟨j + 1, t, by simpa using hget, hmt, ?_, he⟩
      rw [hmi]
      exact congrArg some (by omega)

lemma runRegionAux_nonneg (cfg : Config) (td : TileData) :
    ∀ (ts : List Tile) (st : MatchState) (i : ℕ), 0 ≤ st.MinDist →
      0 ≤ (runRegionAux cfg td st i ts).MinDist := by
  intro ts
  induction ts with
  | nil => intro st i h; exact h
  | cons u us ih =>
    intro st i h
    rw [runRegionAux_cons]
    refine ih _ (i + 1) ?_
    rw [workerStep_fst]
    cases hel : eligDist cfg td u with
    | none => exact h
    | some d =>
      simp only
      split
      · exact eligDist_nonneg cfg td u d hel
      · exact h

lemma runRegionAux_lt_or_eq (cfg : Config) (td : TileData) :
    ∀ (ts : List Tile) (st : MatchState) (i : ℕ),
      runRegionAux cfg td st i ts = st ∨
      (runRegionAux cfg td st i ts).MinDist < st.MinDist := by
  intro ts
  induction ts with
  | nil => intro st i; exact Or.inl rfl
  | cons u us ih =>
    intro st i
    rw [runRegionAux_cons]
    by_cases hw : (workerStep cfg td st (i, u)).1 = st
    · rw [hw]
      exact ih st (i + 1)
    · rcases ih (workerStep cfg td st (i, u)).1 (i + 1) with h | h
      · rw [h]
        exact Or.inr (workerStep_strict cfg td st (i, u) hw)
      · exact Or.inr (h.trans_le (workerStep_minDist_le cfg td st (i, u)))

lemma subImage_constImg_one (p : Pix) :
    subImage (constImg p 1 1) (mkRect 0 0 1 1) = constImg p 1 1 := by
  unfold subImage constImg
  congr 1

/-- Concrete configuration used for concrete scenarios. -/
def cfg0 : Config := { TileSize := 1, CompareSize := 1, CompareDist := 0, Unique := true }

/-- Region whose 1x1 comparison proxy is white. -/
def td0 : TileData :=
  { X := 0, Y := 0, Average := 0, CompareImage := white1, Rect := mkRect 0 0 1 1 }

/-- Region whose 1x1 comparison proxy is black. -/
def td1 : TileData :=
  { X := 0, Y := 0, Average := 0, CompareImage := black1, Rect := mkRect 0 0 1 1 }

/-- A black tile whose mean color matches the proxies. -/
def blackTile : Tile := { Filename := "black.jpg", Tiny := some black1, Average := 0 }

/-- A tile pixel-identical to the black proxy but with a far-off mean color. -/
def farTile : Tile := { Filename := "far.jpg", Tiny := some black1, Average := 100 }

/-- A tile pixel-identical to the black proxy with a matching mean color. -/
def idTile : Tile := { Filename := "id.jpg", Tiny := some black1, Average := 0 }

lemma white1_Dx : white1.bounds.Dx = 1 := by decide

lemma white1_Dy : white1.bounds.Dy = 1 := by decide

lemma subImage_white1 : subImage white1 (mkRect 0 0 1 1) = white1 :=
  subImage_constImg_one whitePix

lemma subImage_black1 : subImage black1 (mkRect 0 0 1 1) = black1 :=
  subImage_constImg_one blackPix

lemma Difference_white_black : Difference white1 black1 = .ok 1 := by
  rw [Difference_ok white1 black1 rfl rfl rfl]
  have h : diffSum white1 black1 = 196605 := by decide
  rw [h, white1_Dx, white1_Dy]
  exact congrArg Except.ok (by norm_num)

lemma Difference_black_black : Difference black1 black1 = .ok 0 := by
  rw [Difference_ok black1 black1 rfl rfl rfl, diffSum_self]
  exact congrArg Except.ok (by norm_num)

instance (img1 img2 : Img) : Decidable (PixelIdentical img1 img2) := by
  unfold PixelIdentical
  infer_instance

lemma runRegion_eq_aux (cfg : Config) (td : TileData) (corpus : List Tile) :
    runRegion cfg td corpus = runRegionAux cfg td initState 0 corpus := rfl

lemma eligDist_black_white : eligDist cfg0 td0 blackTile = some 1 := by
  unfold eligDist
  simp only [blackTile, td0, cfg0]
  rw [if_neg (by norm_num), subImage_white1, Difference_white_black]

lemma eligDist_far : eligDist cfg0 td1 farTile = none := by
  unfold eligDist
  simp only [farTile, td1, cfg0]
  rw [if_pos (by norm_num)]

lemma eligDist_id : eligDist cfg0 td1 idTile = some 0 := by
  unfold eligDist
  simp only [idTile, td1, cfg0]
  rw [if_neg (by norm_num), subImage_black1, Difference_black_black]

lemma runRegion_single (cfg : Config) (td : TileData) (t : Tile) :
    runRegion cfg td [t] = (workerStep cfg td initState (0, t)).1 := by
  unfold runRegion
  rw [runRegionAux_cons, runRegionAux_nil]

lemma runRegion_single_of_one (cfg : Config) (td : TileData) (t : Tile)
    (h : eligDist cfg td t = some 1) : runRegion cfg td [t] = initState := by
  rw [runRegion_single, workerStep_fst, h]
  simp [initState]

/-- C1 counterexample: a corpus consisting of one tile that has a loaded
thumbnail and passes the prefilter, yet whose distance to the proxy is
exactly the sentinel 1.0.  The reducer reports no winner even though the
corpus is nonempty and the tile is eligible in the claim's sense, so the
winner is not the minimum over prefilter-passing tiles as claimed. -/
theorem C1_counterexample :
    blackTile.Tiny ≠ none ∧
    |blackTile.Average - td0.Average| ≤ cfg0.CompareDist ∧
    ([blackTile] ≠ ([] : List Tile)) ∧
    (runRegion cfg0 td0 [blackTile]).MinTile.Filename = "" ∧
    (runRegion cfg0 td0 [blackTile]).MinDist = 1 := by
  have hrun : runRegion cfg0 td0 [blackTile] = initState :=
    runRegion_single_of_one cfg0 td0 blackTile eligDist_black_white
  refine ⟨by simp [blackTile], by simp [blackTile, td0, cfg0], by simp, ?_, ?_⟩
  · rw [hrun]; rfl
  · rw [hrun]; rfl

/-- C1 (amended): after the scan the reducer's best distance is a lower bound
on the distance of every eligible tile (loaded thumbnail, prefilter pass,
comparable); if the best distance beat the 1.0 sentinel the recorded winner
is a corpus tile achieving exactly that distance; and if every eligible tile
has distance at least 1.0 (in particular if none is eligible or the corpus is
empty) the reducer reports no winner: empty winner filename. -/
theorem C1_reducer_minimum (cfg : Config) (td : TileData) (corpus : List Tile) :
    (∀ t ∈ corpus, ∀ d, eligDist cfg td t = some d →
      (runRegion cfg td corpus).MinDist ≤ d) ∧
    ((runRegion cfg td corpus).MinDist < 1 →
      ∃ j t, corpus.get? j = some t ∧ (runRegion cfg td corpus).MinTile = t ∧
        (runRegion cfg td corpus).MinIdx = some j ∧
        eligDist cfg td t = some (runRegion cfg td corpus).MinDist) ∧
    ((∀ t ∈ corpus, ∀ d, eligDist cfg td t = some d → 1 ≤ d) →
      runRegion cfg td corpus = initState ∧
      (runRegion cfg td corpus).MinTile.Filename = "") := by
  refine ⟨?_, ?_, ?_⟩
  · intro t ht d hd
    exact runRegionAux_le_elig cfg td corpus initState 0 t d ht hd
  · intro hlt
    rcases runRegionAux_provenance cfg td corpus initState 0 with h | ⟨j, t, hget, hmt, hmi, he⟩
    · exfalso
      have h1 : (runRegion cfg td corpus).MinDist = 1 := by
        rw [runRegion_eq_aux, h]
        rfl
      rw [h1] at hlt
      exact lt_irrefl 1 hlt
    · exact ⟨j, t, hget, hmt, by simpa using hmi, he⟩
  · intro hall
    have heq : runRegion cfg td corpus = initState := by
      rcases runRegionAux_lt_or_eq cfg td corpus initState 0 with h | h
      · exact h
      · exfalso
        rcases runRegionAux_provenance cfg td corpus initState 0 with h2 | ⟨j, t, hget, _, _, he⟩
        · rw [h2] at h
          exact lt_irrefl _ h
        · have h1 := hall t (List.get?_mem hget) _ he
          have h2 : (runRegionAux cfg td initState 0 corpus).MinDist < 1 := h
          exact absurd (h1.trans_lt h2) (lt_irrefl 1)
    exact ⟨heq, by rw [heq]; rfl⟩

/-- C1 witness: the amended theorem applied at a concrete corpus. -/
theorem C1_reducer_minimum_witness :
    (runRegion cfg0 td1 [idTile]).MinDist ≤ 0 :=
  (C1_reducer_minimum cfg0 td1 [idTile]).1 idTile (by simp) 0 eligDist_id

/-- C5 counterexample: a corpus containing a tile whose thumbnail is
pixel-identical to the region's comparison proxy, but whose mean color is far
from the region's: the prefilter rejects it and the reducer reports no winner
with best distance 1, not a winner with distance 0 as claimed. -/
theorem C5_counterexample :
    PixelIdentical (subImage td1.CompareImage td1.Rect) black1 ∧
    farTile.Tiny = some black1 ∧
    (runRegion cfg0 td1 [farTile]).MinTile.Filename = "" ∧
    (runRegion cfg0 td1 [farTile]).MinDist = 1 := by
  have hrun : runRegion cfg0 td1 [farTile] = initState := by
    rw [runRegion_single, workerStep_fst, eligDist_far]
  refine ⟨?_, rfl, by rw [hrun]; rfl, by rw [hrun]; rfl⟩
  show PixelIdentical (subImage black1 (mkRect 0 0 1 1)) black1
  rw [subImage_black1]
  decide

/-- C5 (amended): if some corpus tile both has a thumbnail pixel-identical to
the region's comparison proxy and passes the mean-color prefilter, the
reducer returns a winner and its recorded best distance is 0. -/
theorem C5_identical_tile (cfg : Config) (td : TileData) (corpus : List Tile)
    (t : Tile) (tiny : Img) (ht : t ∈ corpus) (htiny : t.Tiny = some tiny)
    (hpi : PixelIdentical (subImage td.CompareImage td.Rect) tiny)
    (hpass : |t.Average - td.Average| ≤ cfg.CompareDist)
    (hfn : ∀ u ∈ corpus, u.Filename ≠ "") :
    (runRegion cfg td corpus).MinDist = 0 ∧
    ∃ j w, corpus.get? j = some w ∧ (runRegion cfg td corpus).MinTile = w ∧
      (runRegion cfg td corpus).MinTile.Filename ≠ "" := by
  have hD : Difference (subImage td.CompareImage td.Rect) tiny = .ok 0 := by
    obtain ⟨hm, hx, hy, hpx⟩ := hpi
    rw [Difference_ok _ _ hm hx hy, (diffSum_eq_zero_iff _ _).mpr hpx]
    exact congrArg Except.ok (by norm_num)
  have he : eligDist cfg td t = some 0 := by
    unfold eligDist
    simp only [htiny]
    rw [if_neg (not_lt.mpr hpass), hD]
  have hle : (runRegion cfg td corpus).MinDist ≤ 0 :=
    runRegionAux_le_elig cfg td corpus initState 0 t 0 ht he
  have hge : 0 ≤ (runRegion cfg td corpus).MinDist :=
    runRegionAux_nonneg cfg td corpus initState 0 (by norm_num [initState])
  have h0 : (runRegion cfg td corpus).MinDist = 0 := le_antisymm hle hge
  refine ⟨h0, ?_⟩
  rcases runRegionAux_provenance cfg td corpus initState 0 with h | ⟨j, w, hget, hmt, _, _⟩
  · exfalso
    have h1 : (runRegion cfg td corpus).MinDist = 1 := by
      rw [runRegion_eq_aux, h]
      rfl
    rw [h0] at h1
    norm_num at h1
  · refine ⟨j, w, hget, hmt, ?_⟩
    rw [runRegion_eq_aux, hmt]
    exact hfn w (List.get?_mem hget)

/-- C5 witness: the amended theorem applied at a concrete corpus. -/
theorem C5_identical_tile_witness :
    (runRegion cfg0 td1 [idTile]).MinDist = 0 ∧
    ∃ j w, [idTile].get? j = some w ∧ (runRegion cfg0 td1 [idTile]).MinTile = w ∧
      (runRegion cfg0 td1 [idTile]).MinTile.Filename ≠ "" :=
  C5_identical_tile cfg0 td1 [idTile] idTile black1 (by simp) rfl
    (by rw [show td1.CompareImage = black1 from rfl,
          show td1.Rect = mkRect 0 0 1 1 from rfl, subImage_black1]; decide)
    (by simp [idTile, td1, cfg0])
    (by intro u hu; rw [List.mem_singleton] at hu; subst hu; simp [idTile])

/-- C6: for a tile with a loaded thumbnail, the worker skips the full
distance computation exactly when the absolute difference between the tile's
mean color and the region's proxy mean color exceeds the configured
threshold; a tile whose mean-color delta is within the threshold is always
passed on to the full comparison. -/
theorem C6_prefilter (cfg : Config) (td : TileData) (st : MatchState) (i : ℕ)
    (t : Tile) (tiny : Img) (h : t.Tiny = some tiny) :
    ((workerStep cfg td st (i, t)).2 = false ↔
      |t.Average - td.Average| > cfg.CompareDist) ∧
    (|t.Average - td.Average| ≤ cfg.CompareDist →
      (workerStep cfg td st (i, t)).2 = true) := by
  have hb : (workerStep cfg td st (i, t)).2 =
      if |t.Average - td.Average| > cfg.CompareDist then false else true := by
    unfold workerStep
    rw [h]
    by_cases hp : |t.Average - td.Average| > cfg.CompareDist
    · simp [hp]
    · simp only [hp, if_false]
      cases Difference (subImage td.CompareImage td.Rect) tiny with
      | error e => rfl
      | ok d => by_cases hlt : d < st.MinDist <;> simp [hlt]
  rw [hb]
  constructor
  · by_cases hp : |t.Average - td.Average| > cfg.CompareDist <;> simp [hp]
  · intro hle
    rw [if_neg (not_lt.mpr hle)]

/-- C6 witness: the theorem applied at a concrete tile and region. -/
theorem C6_prefilter_witness :
    ((workerStep cfg0 td0 initState (0, blackTile)).2 = false ↔
      |blackTile.Average - td0.Average| > cfg0.CompareDist) ∧
    (|blackTile.Average - td0.Average| ≤ cfg0.CompareDist →
      (workerStep cfg0 td0 initState (0, blackTile)).2 = true) :=
  C6_prefilter cfg0 td0 initState 0 blackTile black1 rfl

/-- C10: the per-region best distance starts at the sentinel 1.0, never
increases, strictly decreases at every state change, never exceeds 1.0 after
the scan, a winner is only recorded with distance strictly below 1.0, and a
tile whose distance is exactly 1.0 is never selected even as the unique
eligible tile of the corpus. -/
theorem C10_sentinel_invariant (cfg : Config) (td : TileData) :
    initState.MinDist = 1 ∧
    (∀ st it, ((workerStep cfg td st it).1).MinDist ≤ st.MinDist) ∧
    (∀ st it, (workerStep cfg td st it).1 ≠ st →
      ((workerStep cfg td st it).1).MinDist < st.MinDist) ∧
    (∀ corpus, (runRegion cfg td corpus).MinDist ≤ 1) ∧
    (∀ corpus, (runRegion cfg td corpus).MinDist < 1 ∨
      runRegion cfg td corpus = initState) ∧
    (∀ t, eligDist cfg td t = some 1 → runRegion cfg td [t] = initState) := by
  refine ⟨rfl, workerStep_minDist_le cfg td, workerStep_strict cfg td, ?_, ?_, ?_⟩
  · intro corpus
    exact runRegionAux_minDist_le cfg td corpus initState 0
  · intro corpus
    rcases runRegionAux_lt_or_eq cfg td corpus initState 0 with h | h
    · exact Or.inr h
    · exact Or.inl h
  · exact fun t h => runRegion_single_of_one cfg td t h

/-- C10 witness: a concrete tile at distance exactly 1.0 passing the
prefilter is not recorded as a winner. -/
theorem C10_sentinel_invariant_witness :
    runRegion cfg0 td0 [blackTile] = initState :=
  (C10_sentinel_invariant cfg0 td0).2.2.2.2.2 blackTile eligDist_black_white

/-- The region enumeration of `Build` (lines 467-481) with the rectangle
construction of `loadRect` (line 422): `rows = W/TileSize + 1`,
`cols = H/TileSize + 1`, one TileSize x TileSize rectangle per grid cell,
x-major order. -/
def planRects (W H T : ℕ) : List Rectangle :=
  (List.range (W / T + 1)).flatMap fun (x : ℕ) =>
    (List.range (H / T + 1)).map fun (y : ℕ) =>
      mkRect ((x : ℤ) * T) ((y : ℤ) * T) (((x : ℤ) + 1) * T) (((y : ℤ) + 1) * T)

/-- One swap of `rand.Shuffle`'s Fisher-Yates loop
(`rects[i], rects[j] = rects[j], rects[i]`). -/
def swapAt {α : Type} (l : List α) (i j : ℕ) : List α :=
  match l.get? i, l.get? j with
  | some a, some b => (l.set i b).set j a
  | _, _ => l

/-- `rand.Shuffle` as the composition of the index swaps it performs. -/
def applySwaps {α : Type} (l : List α) : List (ℕ × ℕ) → List α
  | [] => l
  | p :: rest => applySwaps (swapAt l p.1 p.2) rest

lemma set_cons_multiset {α : Type} :
    ∀ (l : List α) (i : ℕ) (a b : α), l.get? i = some a →
      a ::ₘ (↑(l.set i b) : Multiset α) = b ::ₘ (↑l : Multiset α) := by
  intro l
  induction l with
  | nil => intro i a b h; simp at h
  | cons c t ih =>
    intro i a b h
    cases i with
    | zero =>
      simp only [List.get?] at h
      have hca : c = a := by injection h
      simp only [List.set, ← Multiset.cons_coe]
      rw [← hca]
      exact Multiset.cons_swap c b ↑t
    | succ i =>
      simp only [List.get?] at h
      simp only [List.set, ← Multiset.cons_coe]
      rw [Multiset.cons_swap a c, ih i a b h, Multiset.cons_swap c b]

lemma swapAt_multiset {α : Type} (l : List α) (i j : ℕ) :
    (↑(swapAt l i j) : Multiset α) = (↑l : Multiset α) := by
  unfold swapAt
  cases hi : l.get? i with
  | none => cases l.get? j <;> rfl
  | some a =>
    cases hj : l.get? j with
    | none => rfl
    | some b =>
      simp only
      by_cases hij : i = j
      · subst hij
        obtain rfl : a = b := by rw [hi] at hj; injection hj
        rw [List.set_set]
        exact (Multiset.cons_inj_right a).mp (set_cons_multiset l i a a hi)
      · have h2 : (l.set i b).get? j = some b := by
          rw [List.get?_set_ne _ _ (fun h => hij h)]
          exact hj
        have h1 := set_cons_multiset l i a b hi
        have h3 := set_cons_multiset (l.set i b) j b a h2
        have h4 : b ::ₘ (↑((l.set i b).set j a) : Multiset α) = b ::ₘ (↑l : Multiset α) :=
          h3.trans h1
        exact (Multiset.cons_inj_right b).mp h4

lemma applySwaps_multiset {α : Type} :
    ∀ (swaps : List (ℕ × ℕ)) (l : List α),
      (↑(applySwaps l swaps) : Multiset α) = (↑l : Multiset α) := by
  intro swaps
  induction swaps with
  | nil => intro l; rfl
  | cons p rest ih =>
    intro l
    show (↑(applySwaps (swapAt l p.1 p.2) rest) : Multiset α) = _
    rw [ih (swapAt l p.1 p.2), swapAt_multiset]

lemma sum_map_const {α : Type} (l : List α) (c : ℕ) :
    (l.map fun _ => c).sum = l.length * c := by
  induction l with
  | nil => simp
  | cons a t ih => simp [ih, Nat.succ_mul, Nat.add_comm]

lemma planRect_shape (x y T : ℕ) :
    (mkRect ((x : ℤ) * T) ((y : ℤ) * T) (((x : ℤ) + 1) * T) (((y : ℤ) + 1) * T)).Dx = T ∧
    (mkRect ((x : ℤ) * T) ((y : ℤ) * T) (((x : ℤ) + 1) * T) (((y : ℤ) + 1) * T)).Dy = T ∧
    (mkRect ((x : ℤ) * T) ((y : ℤ) * T) (((x : ℤ) + 1) * T) (((y : ℤ) + 1) * T)).minX =
      (x : ℤ) * T ∧
    (mkRect ((x : ℤ) * T) ((y : ℤ) * T) (((x : ℤ) + 1) * T) (((y : ℤ) + 1) * T)).minY =
      (y : ℤ) * T := by
  have hT : (0 : ℤ) ≤ (T : ℤ) := Int.natCast_nonneg T
  have hx : (x : ℤ) * T ≤ ((x : ℤ) + 1) * T := by nlinarith
  have hy : (y : ℤ) * T ≤ ((y : ℤ) + 1) * T := by nlinarith
  unfold mkRect Rectangle.Dx Rectangle.Dy
  simp only [min_eq_left hx, min_eq_left hy, max_eq_right hx, max_eq_right hy]
  refine ⟨by ring, by ring, ?_, ?_⟩ <;> trivial

/-- C7: for a canvas of width `W`, height `H` and tile edge `T > 0`, the
region planner produces exactly `(W/T + 1) * (H/T + 1)` rectangles, each of
size `T x T` with the cell `(x, y)` rectangle having min corner
`(x*T, y*T)`; and the shuffle, being a composition of swaps, leaves the
multiset of rectangles unchanged, so two runs over the same canvas and tile
size agree as multisets whatever their shuffles do. -/
theorem C7_region_planner (W H T : ℕ) (hT : 0 < T) :
    (planRects W H T).length = (W / T + 1) * (H / T + 1) ∧
    (∀ r ∈ planRects W H T, ∃ x y : ℕ, x < W / T + 1 ∧ y < H / T + 1 ∧
      r = mkRect ((x : ℤ) * T) ((y : ℤ) * T) (((x : ℤ) + 1) * T) (((y : ℤ) + 1) * T) ∧
      r.Dx = T ∧ r.Dy = T ∧ r.minX = (x : ℤ) * T ∧ r.minY = (y : ℤ) * T) ∧
    (∀ s1 s2 : List (ℕ × ℕ),
      (↑(applySwaps (planRects W H T) s1) : Multiset Rectangle) =
      (↑(applySwaps (planRects W H T) s2) : Multiset Rectangle)) := by
  refine ⟨?_, ?_, ?_⟩
  · unfold planRects
    rw [List.length_flatMap]
    have h1 : List.map (List.length ∘ fun (x : ℕ) => (List.range (H / T + 1)).map
          fun (y : ℕ) =>
            mkRect ((x : ℤ) * T) ((y : ℤ) * T) (((x : ℤ) + 1) * T) (((y : ℤ) + 1) * T))
          (List.range (W / T + 1)) =
        List.map (fun _ => H / T + 1) (List.range (W / T + 1)) :=
      List.map_congr_left fun a _ => by simp
    rw [h1, sum_map_const, List.length_range]
  · intro r hr
    unfold planRects at hr
    rw [List.mem_flatMap] at hr
    obtain ⟨x, hx, hr⟩ := hr
    rw [List.mem_map] at hr
    obtain ⟨y, hy, rfl⟩ := hr
    obtain ⟨h1, h2, h3, h4⟩ := planRect_shape x y T
    exact ⟨x, y, List.mem_range.mp hx, List.mem_range.mp hy, rfl, h1, h2, h3, h4⟩
  · intro s1 s2
    rw [applySwaps_multiset s1, applySwaps_multiset s2]

/-- C7 witness: the theorem applied at a concrete canvas and tile size. -/
theorem C7_region_planner_witness :
    (planRects 2 2 1).length = (2 / 1 + 1) * (2 / 1 + 1) :=
  (C7_region_planner 2 2 1 (by norm_num)).1

/-- Alpha blend of one channel for `draw.Over` on an RGBA destination.
`d8` is the stored 8-bit destination byte, `s16` and `sa16` the 16-bit source
channel and alpha samples.  Mirrors Go's `uint8((dr*a/m + sr) >> 8)` with
`a = (m - sa) * 0x101` and `m = 0xffff`; the `% 256` is the uint8 turncation
of the store. -/
def blend8 (d8 s16 sa16 : ℕ) : ℕ :=
  ((d8 * ((0xffff - sa16) * 0x101) / 0xffff + s16) >>> 8) % 256

/-- `draw.Over` on one pixel of an RGBA canvas: blend each channel, store the
result as 8 bits and read it back as a 16-bit sample (`v * 0x101`). -/
def overPix (d s : Pix) : Pix :=
  { r := blend8 (d.r >>> 8) s.r s.a * 0x101
    g := blend8 (d.g >>> 8) s.g s.a * 0x101
    b := blend8 (d.b >>> 8) s.b s.a * 0x101
    a := blend8 (d.a >>> 8) s.a s.a * 0x101 }

/-- The value `draw.Src` would store for a source sample on an RGBA canvas:
the 8-bit quantisation read back as a 16-bit sample. -/
def store8 (p : Pix) : Pix :=
  { r := (p.r >>> 8) % 256 * 0x101
    g := (p.g >>> 8) % 256 * 0x101
    b := (p.b >>> 8) % 256 * 0x101
    a := (p.a >>> 8) % 256 * 0x101 }

/-- The clipped rectangle `draw.Draw` actually writes when `sp = image.ZP`:
`r ∩ dst.Bounds() ∩ src.Bounds().Add(r.Min)`. -/
def drawEffRect (dst : Img) (r : Rectangle) (src : Img) : Rectangle :=
  (r.inter dst.bounds).inter (src.bounds.add r.minX r.minY)

/-- `draw.Draw(dst, r, src, image.ZP, draw.Over)` on RGBA images: inside the
clipped rectangle each destination pixel is alpha-blended with the source
pixel at the corresponding offset; everything else is untouched. -/
def drawOver (dst : Img) (r : Rectangle) (src : Img) : Img :=
  { dst with At := fun x y =>
      if (drawEffRect dst r src).Mem x y then
        overPix (dst.At x y) (src.At (x - r.minX) (y - r.minY))
      else dst.At x y }

/-- The mutable state `Build` threads through its region loop: the corpus
`g.Tiles` and the canvas `g.SeedImage`. -/
structure BuildState where
  Tiles : List Tile
  Seed : Img

/-- The rectangle `Build` composites into (line 561):
`image.Rect(X*T, Y*T, (X+Rect.Dx())*T, (Y+Rect.Dy())*T)` where `Rect` is the
comparison rectangle left in the `TileData`. -/
def drawRect (cfg : Config) (td : TileData) : Rectangle :=
  mkRect ((td.X : ℤ) * cfg.TileSize) ((td.Y : ℤ) * cfg.TileSize)
    (((td.X : ℤ) + td.Rect.Dx) * cfg.TileSize) (((td.Y : ℤ) + td.Rect.Dy) * cfg.TileSize)

/-- The grid cell rectangle of a region: min corner `(X*T, Y*T)`, size
`T x T`. -/
def cellBox (cfg : Config) (td : TileData) : Rectangle :=
  mkRect ((td.X : ℤ) * cfg.TileSize) ((td.Y : ℤ) * cfg.TileSize)
    (((td.X : ℤ) + 1) * cfg.TileSize) (((td.Y : ℤ) + 1) * cfg.TileSize)

/-- The corpus after one region resolves a winner: under the uniqueness
policy `Build` removes the winner's list element (lines 540-546). -/
def buildStepTiles (cfg : Config) (s : BuildState) (td : TileData) : List Tile :=
  if cfg.Unique then
    match (runRegion cfg td s.Tiles).MinIdx with
    | none => s.Tiles
    | some j => s.Tiles.eraseIdx j
  else s.Tiles

/-- One iteration of `Build`'s region loop after the worker pool joins
(lines 531-562): skip the region when there is no winner (empty winner
filename); otherwise remove the winner from the corpus under the uniqueness
policy, resolve the winner's full-resolution tile through the external
collaborator `resolve` (`none` models a load error, which skips the
composite), and composite it with `draw.Over`.  The trace entry records the
winner's filename and whether the composite happened. -/
def buildStep (cfg : Config) (resolve : String → Option Img) (s : BuildState)
    (td : TileData) : BuildState × Option (String × Bool) :=
  if (runRegion cfg td s.Tiles).MinTile.Filename = "" then (s, none)
  else
    match resolve (runRegion cfg td s.Tiles).MinTile.Filename with
    | none =>
        ({ Tiles := buildStepTiles cfg s td, Seed := s.Seed },
         some ((runRegion cfg td s.Tiles).MinTile.Filename, false))
    | some tileImg =>
        ({ Tiles := buildStepTiles cfg s td,
           Seed := drawOver s.Seed (drawRect cfg td) tileImg },
         some ((runRegion cfg td s.Tiles).MinTile.Filename, true))

/-- `Build`'s region loop over the shuffled region list, with one trace entry
per region. -/
def buildRun (cfg : Config) (resolve : String → Option Img) :
    BuildState → List TileData → BuildState × List (Option (String × Bool))
  | s, [] => (s, [])
  | s, td :: rest =>
    let p := buildStep cfg resolve s td
    let q := buildRun cfg resolve p.1 rest
    (q.1, p.2 :: q.2)

/-- The filenames of the regions that found a winner, in region order. -/
def traceWinners (t : List (Option (String × Bool))) : List String :=
  (t.filterMap id).map Prod.fst

lemma buildRun_nil (cfg : Config) (resolve : String → Option Img) (s : BuildState) :
    buildRun cfg resolve s [] = (s, []) := rfl

lemma buildRun_cons (cfg : Config) (resolve : String → Option Img) (s : BuildState)
    (td : TileData) (rest : List TileData) :
    buildRun cfg resolve s (td :: rest) =
      ((buildRun cfg resolve (buildStep cfg resolve s td).1 rest).1,
       (buildStep cfg resolve s td).2 ::
         (buildRun cfg resolve (buildStep cfg resolve s td).1 rest).2) := rfl

lemma winner_mem (cfg : Config) (td : TileData) (corpus : List Tile)
    (h : (runRegion cfg td corpus).MinTile.Filename ≠ "") :
    ∃ j, corpus.get? j = some (runRegion cfg td corpus).MinTile ∧
      (runRegion cfg td corpus).MinIdx = some j := by
  rcases runRegionAux_provenance cfg td corpus initState 0 with h2 | ⟨j, t, hget, hmt, hmi, _⟩
  · exfalso
    apply h
    rw [runRegion_eq_aux, h2]
    rfl
  · refine ⟨j, ?_, ?_⟩
    · rw [runRegion_eq_aux, hmt]
      exact hget
    · rw [runRegion_eq_aux, hmi]
      exact congrArg some (Nat.zero_add j)

lemma buildStep_no_winner (cfg : Config) (resolve : String → Option Img)
    (s : BuildState) (td : TileData)
    (h : (runRegion cfg td s.Tiles).MinTile.Filename = "") :
    buildStep cfg resolve s td = (s, none) := by
  unfold buildStep
  rw [if_pos h]

lemma buildStep_entry_none (cfg : Config) (resolve : String → Option Img)
    (s : BuildState) (td : TileData)
    (h : (buildStep cfg resolve s td).2 = none) :
    buildStep cfg resolve s td = (s, none) := by
  by_cases hw : (runRegion cfg td s.Tiles).MinTile.Filename = ""
  · exact buildStep_no_winner cfg resolve s td hw
  · exfalso
    unfold buildStep at h
    rw [if_neg hw] at h
    cases hres : resolve (runRegion cfg td s.Tiles).MinTile.Filename <;>
      rw [hres] at h <;> simp at h

lemma buildStepTiles_sublist (cfg : Config) (s : BuildState) (td : TileData) :
    (buildStepTiles cfg s td).Sublist s.Tiles := by
  unfold buildStepTiles
  split
  · cases (runRegion cfg td s.Tiles).MinIdx with
    | none => exact List.Sublist.refl _
    | some j => exact List.eraseIdx_sublist _ j
  · exact List.Sublist.refl _

lemma buildStep_tiles_sublist (cfg : Config) (resolve : String → Option Img)
    (s : BuildState) (td : TileData) :
    ((buildStep cfg resolve s td).1).Tiles.Sublist s.Tiles := by
  unfold buildStep
  split
  · exact List.Sublist.refl _
  · cases hres : resolve (runRegion cfg td s.Tiles).MinTile.Filename with
    | none => exact buildStepTiles_sublist cfg s td
    | some tileImg => exact buildStepTiles_sublist cfg s td

lemma buildRun_tiles_sublist (cfg : Config) (resolve : String → Option Img) :
    ∀ (regions : List TileData) (s : BuildState),
      ((buildRun cfg resolve s regions).1).Tiles.Sublist s.Tiles := by
  intro regions
  induction regions with
  | nil => intro s; exact List.Sublist.refl _
  | cons td rest ih =>
    intro s
    rw [buildRun_cons]
    exact (ih (buildStep cfg resolve s td).1).trans
      (buildStep_tiles_sublist cfg resolve s td)

lemma buildStep_entry_some (cfg : Config) (resolve : String → Option Img)
    (s : BuildState) (td : TileData) (f : String) (b : Bool)
    (h : (buildStep cfg resolve s td).2 = some (f, b)) :
    f = (runRegion cfg td s.Tiles).MinTile.Filename ∧ f ≠ "" ∧
    ((buildStep cfg resolve s td).1).Tiles = buildStepTiles cfg s td := by
  unfold buildStep at h ⊢
  by_cases hw : (runRegion cfg td s.Tiles).MinTile.Filename = ""
  · rw [if_pos hw] at h
    exact absurd h (by simp)
  · rw [if_neg hw] at h ⊢
    cases hres : resolve (runRegion cfg td s.Tiles).MinTile.Filename with
    | none =>
      rw [hres] at h
      simp only [Option.some.injEq, Prod.mk.injEq] at h
      exact ⟨h.1.symm, h.1 ▸ hw, rfl⟩
    | some tileImg =>
      rw [hres] at h
      simp only [Option.some.injEq, Prod.mk.injEq] at h
      exact ⟨h.1.symm, h.1 ▸ hw, rfl⟩

lemma nodup_get_not_mem_eraseIdx {β : Type} :
    ∀ (l : List β) (j : ℕ) (f : β), l.Nodup → l.get? j = some f →
      f ∉ l.eraseIdx j := by
  intro l
  induction l with
  | nil => intro j f _ h; simp at h
  | cons b t ih =>
    intro j f hnd hget
    cases j with
    | zero =>
      simp only [List.get?] at hget
      obtain rfl : b = f := by injection hget
      simp only [List.eraseIdx]
      exact (List.nodup_cons.mp hnd).1
    | succ j =>
      simp only [List.get?] at hget
      simp only [List.eraseIdx]
      intro hmem
      rcases List.mem_cons.mp hmem with rfl | hmem
      · exact (List.nodup_cons.mp hnd).1 (List.get?_mem hget)
      · exact ih j f (List.nodup_cons.mp hnd).2 hget hmem

lemma map_eraseIdx {β γ : Type} (g : β → γ) :
    ∀ (l : List β) (j : ℕ), (l.eraseIdx j).map g = (l.map g).eraseIdx j := by
  intro l
  induction l with
  | nil => intro j; simp
  | cons b t ih =>
    intro j
    cases j with
    | zero => rfl
    | succ j =>
      simp only [List.eraseIdx, List.map]
      rw [ih j]

lemma buildStep_size (cfg : Config) (resolve : String → Option Img)
    (s : BuildState) (td : TileData) (f : String) (b : Bool)
    (hu : cfg.Unique = true)
    (h : (buildStep cfg resolve s td).2 = some (f, b)) :
    ((buildStep cfg resolve s td).1).Tiles.length + 1 = s.Tiles.length := by
  obtain ⟨hf, hne, htiles⟩ := buildStep_entry_some cfg resolve s td f b h
  have hw : (runRegion cfg td s.Tiles).MinTile.Filename ≠ "" := hf ▸ hne
  obtain ⟨j, hget, hmi⟩ := winner_mem cfg td s.Tiles hw
  have hlen : j < s.Tiles.length := (List.get?_eq_some.mp hget).1
  rw [htiles]
  unfold buildStepTiles
  rw [if_pos (by rw [hu]), hmi]
  rw [List.length_eraseIdx, if_pos hlen]
  omega

lemma buildStep_winner_removed (cfg : Config) (resolve : String → Option Img)
    (s : BuildState) (td : TileData) (f : String) (b : Bool)
    (hu : cfg.Unique = true)
    (hnd : (s.Tiles.map Tile.Filename).Nodup)
    (h : (buildStep cfg resolve s td).2 = some (f, b)) :
    f ∈ s.Tiles.map Tile.Filename ∧
    f ∉ ((buildStep cfg resolve s td).1).Tiles.map Tile.Filename := by
  obtain ⟨hf, hne, htiles⟩ := buildStep_entry_some cfg resolve s td f b h
  have hw : (runRegion cfg td s.Tiles).MinTile.Filename ≠ "" := hf ▸ hne
  obtain ⟨j, hget, hmi⟩ := winner_mem cfg td s.Tiles hw
  have hmem : f ∈ s.Tiles.map Tile.Filename := by
    rw [hf]
    exact List.mem_map_of_mem Tile.Filename (List.get?_mem hget)
  refine ⟨hmem, ?_⟩
  rw [htiles]
  unfold buildStepTiles
  rw [if_pos (by rw [hu]), hmi, map_eraseIdx]
  apply nodup_get_not_mem_eraseIdx (s.Tiles.map Tile.Filename) j f hnd
  have : (s.Tiles.map Tile.Filename).get? j = some (runRegion cfg td s.Tiles).MinTile.Filename := by
    rw [List.get?_map, hget]
    rfl
  rw [this, hf]

lemma traceWinners_cons_none (t : List (Option (String × Bool))) :
    traceWinners (none :: t) = traceWinners t := rfl

lemma traceWinners_cons_some (f : String) (b : Bool)
    (t : List (Option (String × Bool))) :
    traceWinners (some (f, b) :: t) = f :: traceWinners t := rfl

lemma buildRun_winners (cfg : Config) (resolve : String → Option Img)
    (hu : cfg.Unique = true) :
    ∀ (regions : List TileData) (s : BuildState) (prev : List String),
      (s.Tiles.map Tile.Filename).Nodup →
      (∀ f ∈ prev, f ∉ s.Tiles.map Tile.Filename) →
      prev.Nodup →
      (prev ++ traceWinners (buildRun cfg resolve s regions).2).Nodup := by
  intro regions
  induction regions with
  | nil =>
    intro s prev _ _ hp
    rw [buildRun_nil]
    simpa [traceWinners] using hp
  | cons td rest ih =>
    intro s prev hnd hdisj hp
    rw [buildRun_cons]
    cases hentry : (buildStep cfg resolve s td).2 with
    | none =>
      have hstep := buildStep_entry_none cfg resolve s td hentry
      have h1 : (buildStep cfg resolve s td).1 = s := by rw [hstep]
      rw [h1]
      show (prev ++ traceWinners (none :: (buildRun cfg resolve s rest).2)).Nodup
      rw [traceWinners_cons_none]
      exact ih s prev hnd hdisj hp
    | some fb =>
      obtain ⟨f, b⟩ := fb
      have hrm := buildStep_winner_removed cfg resolve s td f b hu hnd hentry
      have hsub := (buildStep_tiles_sublist cfg resolve s td).map Tile.Filename
      have hnd' : (((buildStep cfg resolve s td).1).Tiles.map Tile.Filename).Nodup :=
        List.Nodup.sublist hsub hnd
      show (prev ++ traceWinners (some (f, b) ::
        (buildRun cfg resolve (buildStep cfg resolve s td).1 rest).2)).Nodup
      rw [traceWinners_cons_some, List.append_cons]
      refine ih (buildStep cfg resolve s td).1 (prev ++ [f]) hnd' ?_ ?_
      · intro g hg
        rcases List.mem_append.mp hg with hg | hg
        · exact fun hmem => hdisj g hg (hsub.subset hmem)
        · rw [List.mem_singleton] at hg
          subst hg
          exact hrm.2
      · have hfp : f ∉ prev := fun hf => hdisj f hf hrm.1
        rw [List.nodup_append]
        exact ⟨hp, List.nodup_singleton f, by
          intro a ha hb
          rw [List.mem_singleton] at hb
          subst hb
          exact hfp ha⟩

lemma runRegion_nil (cfg : Config) (td : TileData) :
    runRegion cfg td [] = initState := rfl

/-- C8: a region with no winner leaves the state untouched; a region whose
winner fails to resolve leaves the canvas untouched; with an empty corpus
every region reports no winner and the final canvas equals the initial
(scaled master) canvas pixel for pixel. -/
theorem C8_failure_handling (cfg : Config) (resolve : String → Option Img) :
    (∀ (s : BuildState) (td : TileData),
      (runRegion cfg td s.Tiles).MinTile.Filename = "" →
      buildStep cfg resolve s td = (s, none)) ∧
    (∀ (s : BuildState) (td : TileData),
      resolve ((runRegion cfg td s.Tiles).MinTile.Filename) = none →
      ((buildStep cfg resolve s td).1).Seed = s.Seed) ∧
    (∀ (canvas : Img) (regions : List TileData),
      ((buildRun cfg resolve { Tiles := [], Seed := canvas } regions).1).Seed = canvas ∧
      ((buildRun cfg resolve { Tiles := [], Seed := canvas } regions).1).Tiles = [] ∧
      (∀ e ∈ (buildRun cfg resolve { Tiles := [], Seed := canvas } regions).2,
        e = none)) := by
  refine ⟨buildStep_no_winner cfg resolve, ?_, ?_⟩
  · intro s td h
    by_cases hw : (runRegion cfg td s.Tiles).MinTile.Filename = ""
    · rw [buildStep_no_winner cfg resolve s td hw]
    · unfold buildStep
      rw [if_neg hw, h]
  · intro canvas regions
    induction regions with
    | nil => exact ⟨rfl, rfl, by intro e he; simp [buildRun_nil] at he⟩
    | cons td rest ih =>
      have hstep : buildStep cfg resolve { Tiles := [], Seed := canvas } td =
          ({ Tiles := [], Seed := canvas }, none) :=
        buildStep_no_winner cfg resolve _ td rfl
      have h1 : (buildStep cfg resolve { Tiles := [], Seed := canvas } td).1 =
          { Tiles := [], Seed := canvas } := by rw [hstep]
      have h2 : (buildStep cfg resolve { Tiles := [], Seed := canvas } td).2 = none := by
        rw [hstep]
      rw [buildRun_cons, h1, h2]
      refine ⟨ih.1, ih.2.1, ?_⟩
      intro e he
      rcases List.mem_cons.mp he with rfl | he
      · rfl
      · exact ih.2.2 e he

/-- Resolution oracle that always fails (every full-resolution load errors). -/
def resolveFail : String → Option Img := fun _ => none

/-- C8 witness: the theorem applied at concrete inputs. -/
theorem C8_failure_handling_witness :
    buildStep cfg0 resolveFail { Tiles := ([] : List Tile), Seed := black1 } td0 =
      ({ Tiles := [], Seed := black1 }, none) ∧
    ((buildRun cfg0 resolveFail { Tiles := [], Seed := black1 } [td0]).1).Seed = black1 :=
  ⟨(C8_failure_handling cfg0 resolveFail).1 _ td0 rfl,
   ((C8_failure_handling cfg0 resolveFail).2.2 black1 [td0]).1⟩

lemma runRegion_id_corpus :
    runRegion cfg0 td1 [idTile] =
      { MinDist := 0, MinTile := idTile, MinIdx := some 0 } := by
  rw [runRegion_single]
  simp only [workerStep_fst, eligDist_id]
  rw [if_pos (show (0 : ℚ) < initState.MinDist by norm_num [initState])]

lemma buildStep_fail_eval :
    buildStep cfg0 resolveFail { Tiles := [idTile], Seed := black1 } td1 =
      ({ Tiles := [], Seed := black1 }, some ("id.jpg", false)) := by
  unfold buildStep buildStepTiles
  have hs : ({ Tiles := [idTile], Seed := black1 } : BuildState).Tiles = [idTile] := rfl
  rw [hs, runRegion_id_corpus]
  rfl

/-- C3 counterexample: with uniqueness enabled, one region whose winner is
found but whose full-resolution load fails: the corpus still shrinks from one
tile to zero although no resolution succeeded and nothing was composited, so
the corpus does not decrease by exactly one per successful resolution. -/
theorem C3_counterexample :
    cfg0.Unique = true ∧
    (buildRun cfg0 resolveFail { Tiles := [idTile], Seed := black1 } [td1]).2 =
      [some ("id.jpg", false)] ∧
    ((buildRun cfg0 resolveFail { Tiles := [idTile], Seed := black1 } [td1]).1).Tiles =
      [] := by
  have h1 : (buildStep cfg0 resolveFail { Tiles := [idTile], Seed := black1 } td1).1 =
      { Tiles := [], Seed := black1 } := by rw [buildStep_fail_eval]
  have h2 : (buildStep cfg0 resolveFail { Tiles := [idTile], Seed := black1 } td1).2 =
      some ("id.jpg", false) := by rw [buildStep_fail_eval]
  refine ⟨rfl, ?_, ?_⟩
  · rw [buildRun_cons, buildRun_nil, h1, h2]
  · rw [buildRun_cons, buildRun_nil, h1]

/-- C3 (amended): with the uniqueness policy enabled and distinct corpus
filenames, no two regions ever record the same winner (so no two regions
composite the same tile identity); the corpus shrinks by exactly one per
region that finds a winner, whether or not the resolution then succeeds, and
is untouched by regions without a winner; and once a region's winner is
removed its filename never reappears in the corpus any later region scans. -/
theorem C3_uniqueness (cfg : Config) (resolve : String → Option Img)
    (hu : cfg.Unique = true) :
    (∀ (s0 : BuildState) (regions : List TileData),
      (s0.Tiles.map Tile.Filename).Nodup →
      (traceWinners (buildRun cfg resolve s0 regions).2).Nodup) ∧
    (∀ (s : BuildState) (td : TileData) (f : String) (b : Bool),
      (buildStep cfg resolve s td).2 = some (f, b) →
      ((buildStep cfg resolve s td).1).Tiles.length + 1 = s.Tiles.length) ∧
    (∀ (s : BuildState) (td : TileData),
      (buildStep cfg resolve s td).2 = none →
      buildStep cfg resolve s td = (s, none)) ∧
    (∀ (s : BuildState) (td : TileData) (f : String) (b : Bool),
      (s.Tiles.map Tile.Filename).Nodup →
      (buildStep cfg resolve s td).2 = some (f, b) →
      ∀ rest : List TileData,
        f ∉ ((buildRun cfg resolve ((buildStep cfg resolve s td).1) rest).1).Tiles.map
          Tile.Filename) := by
  refine ⟨?_, ?_, buildStep_entry_none cfg resolve, ?_⟩
  · intro s0 regions hnd
    have h := buildRun_winners cfg resolve hu regions s0 [] hnd (by simp) List.nodup_nil
    simpa using h
  · intro s td f b h
    exact buildStep_size cfg resolve s td f b hu h
  · intro s td f b hnd h rest
    have hrm := buildStep_winner_removed cfg resolve s td f b hu hnd h
    have hsub := (buildRun_tiles_sublist cfg resolve rest
      (buildStep cfg resolve s td).1).map Tile.Filename
    exact fun hmem => hrm.2 (hsub.subset hmem)

/-- C3 witness: the amended theorem applied at a concrete build step. -/
theorem C3_uniqueness_witness :
    ((buildStep cfg0 resolveFail { Tiles := [idTile], Seed := black1 } td1).1).Tiles.length
      + 1 = ({ Tiles := [idTile], Seed := black1 } : BuildState).Tiles.length :=
  (C3_uniqueness cfg0 resolveFail rfl).2.1 _ td1 "id.jpg" false (by rw [buildStep_fail_eval])

lemma mkRect_of_le {x0 y0 x1 y1 : ℤ} (hx : x0 ≤ x1) (hy : y0 ≤ y1) :
    mkRect x0 y0 x1 y1 = { minX := x0, minY := y0, maxX := x1, maxY := y1 } := by
  unfold mkRect
  rw [min_eq_left hx, min_eq_left hy, max_eq_right hx, max_eq_right hy]

lemma mem_of_mem_inter {r s : Rectangle} {x y : ℤ}
    (h : (Rectangle.inter r s).Mem x y) : r.Mem x y ∧ s.Mem x y := by
  simp only [Rectangle.inter] at h
  split at h
  · unfold Rectangle.Mem at h
    simp only at h
    omega
  · obtain ⟨h1, h2, h3, h4⟩ := h
    exact ⟨⟨le_trans (le_max_left _ _) h1, lt_of_lt_of_le h2 (min_le_left _ _),
            le_trans (le_max_left _ _) h3, lt_of_lt_of_le h4 (min_le_left _ _)⟩,
           ⟨le_trans (le_max_right _ _) h1, lt_of_lt_of_le h2 (min_le_right _ _),
            le_trans (le_max_right _ _) h3, lt_of_lt_of_le h4 (min_le_right _ _)⟩⟩

lemma mem_of_mem_add {r : Rectangle} {dx dy x y : ℤ}
    (h : (r.add dx dy).Mem x y) : r.Mem (x - dx) (y - dy) := by
  unfold Rectangle.add Rectangle.Mem at *
  simp only at h
  omega

lemma blend8_full_alpha (d8 s16 : ℕ) : blend8 d8 s16 0xffff = (s16 >>> 8) % 256 := by
  unfold blend8
  norm_num

lemma overPix_full_alpha (d s : Pix) (ha : s.a = 0xffff) : overPix d s = store8 s := by
  unfold overPix store8
  rw [ha]
  simp [blend8_full_alpha]

lemma drawOver_At (dst : Img) (r : Rectangle) (src : Img) (x y : ℤ) :
    (drawOver dst r src).At x y =
      if (drawEffRect dst r src).Mem x y then
        overPix (dst.At x y) (src.At (x - r.minX) (y - r.minY))
      else dst.At x y := rfl

lemma effRect_subset (dst : Img) (r : Rectangle) (src : Img) (x y : ℤ)
    (h : (drawEffRect dst r src).Mem x y) :
    r.Mem x y ∧ dst.bounds.Mem x y ∧ src.bounds.Mem (x - r.minX) (y - r.minY) := by
  unfold drawEffRect at h
  obtain ⟨h1, h2⟩ := mem_of_mem_inter h
  obtain ⟨h3, h4⟩ := mem_of_mem_inter h1
  exact ⟨h3, h4, mem_of_mem_add h2⟩

lemma drawRect_eq (cfg : Config) (td : TileData)
    (hrect : td.Rect = mkRect 0 0 (cfg.CompareSize : ℤ) (cfg.CompareSize : ℤ)) :
    drawRect cfg td =
      { minX := (td.X : ℤ) * cfg.TileSize, minY := (td.Y : ℤ) * cfg.TileSize
        maxX := ((td.X : ℤ) + cfg.CompareSize) * cfg.TileSize
        maxY := ((td.Y : ℤ) + cfg.CompareSize) * cfg.TileSize } := by
  have hcs : (0 : ℤ) ≤ (cfg.CompareSize : ℤ) := Int.natCast_nonneg _
  have hdxy : (mkRect 0 0 (cfg.CompareSize : ℤ) (cfg.CompareSize : ℤ)).Dx =
      (cfg.CompareSize : ℤ) ∧
      (mkRect 0 0 (cfg.CompareSize : ℤ) (cfg.CompareSize : ℤ)).Dy =
      (cfg.CompareSize : ℤ) := by
    rw [mkRect_of_le hcs hcs]
    unfold Rectangle.Dx Rectangle.Dy
    norm_num
  have hT : (0 : ℤ) ≤ (cfg.TileSize : ℤ) := Int.natCast_nonneg _
  have hX : (0 : ℤ) ≤ (td.X : ℤ) := Int.natCast_nonneg _
  have hY : (0 : ℤ) ≤ (td.Y : ℤ) := Int.natCast_nonneg _
  unfold drawRect
  rw [hrect, hdxy.1, hdxy.2]
  exact mkRect_of_le (by nlinarith) (by nlinarith)

lemma cellBox_eq (cfg : Config) (td : TileData) :
    cellBox cfg td =
      { minX := (td.X : ℤ) * cfg.TileSize, minY := (td.Y : ℤ) * cfg.TileSize
        maxX := ((td.X : ℤ) + 1) * cfg.TileSize
        maxY := ((td.Y : ℤ) + 1) * cfg.TileSize } := by
  have hT : (0 : ℤ) ≤ (cfg.TileSize : ℤ) := Int.natCast_nonneg _
  have hX : (0 : ℤ) ≤ (td.X : ℤ) := Int.natCast_nonneg _
  have hY : (0 : ℤ) ≤ (td.Y : ℤ) := Int.natCast_nonneg _
  unfold cellBox
  exact mkRect_of_le (by nlinarith) (by nlinarith)

lemma eff_in_cell (cfg : Config) (td : TileData) (dst src : Img) (x y : ℤ)
    (hrect : td.Rect = mkRect 0 0 (cfg.CompareSize : ℤ) (cfg.CompareSize : ℤ))
    (hb : src.bounds = mkRect 0 0 (cfg.TileSize : ℤ) (cfg.TileSize : ℤ))
    (h : (drawEffRect dst (drawRect cfg td) src).Mem x y) :
    (cellBox cfg td).Mem x y ∧ dst.bounds.Mem x y := by
  obtain ⟨h1, h2, h3⟩ := effRect_subset dst _ src x y h
  refine ⟨?_, h2⟩
  have hT : (0 : ℤ) ≤ (cfg.TileSize : ℤ) := Int.natCast_nonneg _
  rw [hb, mkRect_of_le hT hT, drawRect_eq cfg td hrect] at h3
  rw [cellBox_eq]
  unfold Rectangle.Mem at h3 ⊢
  simp only at h3 ⊢
  have e1 : ((td.X : ℤ) + 1) * cfg.TileSize = (td.X : ℤ) * cfg.TileSize + cfg.TileSize := by
    ring
  have e2 : ((td.Y : ℤ) + 1) * cfg.TileSize = (td.Y : ℤ) * cfg.TileSize + cfg.TileSize := by
    ring
  rw [e1, e2]
  omega

lemma cellBox_disjoint (cfg : Config) (ta tb : TileData) (hT : 0 < cfg.TileSize)
    (hne : ta.X ≠ tb.X ∨ ta.Y ≠ tb.Y) (x y : ℤ)
    (h1 : (cellBox cfg ta).Mem x y) (h2 : (cellBox cfg tb).Mem x y) : False := by
  rw [cellBox_eq] at h1 h2
  unfold Rectangle.Mem at h1 h2
  simp only at h1 h2
  have hTc : (0 : ℤ) < (cfg.TileSize : ℤ) := by exact_mod_cast hT
  have key : ∀ A B : ℕ, A < B →
      ((A : ℤ) + 1) * cfg.TileSize ≤ (B : ℤ) * cfg.TileSize := by
    intro A B hAB
    have hc : ((A : ℤ) + 1) ≤ (B : ℤ) := by exact_mod_cast hAB
    exact mul_le_mul_of_nonneg_right hc hTc.le
  rcases hne with hne | hne
  · rcases Nat.lt_or_ge ta.X tb.X with hlt | hge
    · have hk := key ta.X tb.X hlt
      linarith [h1.2.1, h2.1]
    · have hlt : tb.X < ta.X := lt_of_le_of_ne hge (Ne.symm hne)
      have hk := key tb.X ta.X hlt
      linarith [h2.2.1, h1.1]
  · rcases Nat.lt_or_ge ta.Y tb.Y with hlt | hge
    · have hk := key ta.Y tb.Y hlt
      linarith [h1.2.2.2, h2.2.2.1]
    · have hlt : tb.Y < ta.Y := lt_of_le_of_ne hge (Ne.symm hne)
      have hk := key tb.Y ta.Y hlt
      linarith [h2.2.2.2, h1.2.2.1]

def gray12Pix : Pix := { r := 0x1212, g := 0x1212, b := 0x1212, a := 0xffff }

def clearPix : Pix := { r := 0, g := 0, b := 0, a := 0 }

/-- An 8-bit-representable gray canvas. -/
def gray12 : Img := constImg gray12Pix 1 1

/-- A fully transparent 1x1 tile image. -/
def clearImg : Img := constImg clearPix 1 1

/-- Resolution oracle returning the transparent tile for every identity. -/
def resolveClear : String → Option Img := fun _ => some clearImg

/-- Build state with a gray canvas and the identical tile in the corpus. -/
def sC : BuildState := { Tiles := [idTile], Seed := gray12 }

lemma buildStep_clear_eval :
    buildStep cfg0 resolveClear sC td1 =
      ({ Tiles := [], Seed := drawOver gray12 (drawRect cfg0 td1) clearImg },
       some ("id.jpg", true)) := by
  unfold buildStep buildStepTiles
  have hs : sC.Tiles = [idTile] := rfl
  rw [hs, runRegion_id_corpus]
  rfl

/-- C9 counterexample: a region whose winner resolves to a fully transparent
tile.  The composite is reported, the pixel (0, 0) lies inside the drawn
rectangle, yet the canvas pixel keeps its old value, which differs from the
tile's pixel: `draw.Over` alpha-blends instead of overwriting. -/
theorem C9_counterexample :
    (buildStep cfg0 resolveClear sC td1).2 = some ("id.jpg", true) ∧
    (drawEffRect gray12 (drawRect cfg0 td1) clearImg).Mem 0 0 ∧
    (((buildStep cfg0 resolveClear sC td1).1).Seed).At 0 0 = gray12.At 0 0 ∧
    gray12.At 0 0 ≠ clearImg.At 0 0 := by
  refine ⟨by rw [buildStep_clear_eval], by decide, ?_, by decide⟩
  have h1 : ((buildStep cfg0 resolveClear sC td1).1).Seed =
      drawOver gray12 (drawRect cfg0 td1) clearImg := by rw [buildStep_clear_eval]
  rw [h1]
  decide

/-- C9 (amended): for every region whose winner resolves successfully, the
assembler composites the resolved tile with `draw.Over` source-over alpha
blending, which coincides with overwriting (up to the canvas's 8-bit
storage) exactly on fully opaque tile pixels; with the comparison rectangle
left by `loadRect` and a TileSize-sized resolved tile, all writes stay
within the region's grid cell clipped to the canvas, and the grid cells of
distinct regions are pairwise disjoint. -/
theorem C9_assembler (cfg : Config) (resolve : String → Option Img)
    (s : BuildState) (td : TileData) (f : String) (tileImg : Img)
    (hrect : td.Rect = mkRect 0 0 (cfg.CompareSize : ℤ) (cfg.CompareSize : ℤ))
    (hb : tileImg.bounds = mkRect 0 0 (cfg.TileSize : ℤ) (cfg.TileSize : ℤ))
    (hc : (buildStep cfg resolve s td).2 = some (f, true))
    (hres : resolve f = some tileImg) :
    ((buildStep cfg resolve s td).1).Seed = drawOver s.Seed (drawRect cfg td) tileImg ∧
    (∀ x y : ℤ, (((buildStep cfg resolve s td).1).Seed).At x y ≠ s.Seed.At x y →
      (cellBox cfg td).Mem x y ∧ s.Seed.bounds.Mem x y) ∧
    (∀ x y : ℤ, (drawEffRect s.Seed (drawRect cfg td) tileImg).Mem x y →
      (tileImg.At (x - (drawRect cfg td).minX) (y - (drawRect cfg td).minY)).a = 0xffff →
      (((buildStep cfg resolve s td).1).Seed).At x y =
        store8 (tileImg.At (x - (drawRect cfg td).minX) (y - (drawRect cfg td).minY))) ∧
    (∀ ta tb : TileData, 0 < cfg.TileSize → ta.X ≠ tb.X ∨ ta.Y ≠ tb.Y →
      ∀ x y : ℤ, (cellBox cfg ta).Mem x y → (cellBox cfg tb).Mem x y → False) := by
  obtain ⟨hf, hne, _⟩ := buildStep_entry_some cfg resolve s td f true hc
  have hw : (runRegion cfg td s.Tiles).MinTile.Filename ≠ "" := hf ▸ hne
  have hres2 : resolve (runRegion cfg td s.Tiles).MinTile.Filename = some tileImg := by
    rw [← hf]
    exact hres
  have hseed : ((buildStep cfg resolve s td).1).Seed =
      drawOver s.Seed (drawRect cfg td) tileImg := by
    unfold buildStep
    rw [if_neg hw, hres2]
  refine ⟨hseed, ?_, ?_, cellBox_disjoint cfg⟩
  · intro x y hch
    rw [hseed, drawOver_At] at hch
    by_cases hmem : (drawEffRect s.Seed (drawRect cfg td) tileImg).Mem x y
    · exact eff_in_cell cfg td s.Seed tileImg x y hrect hb hmem
    · rw [if_neg hmem] at hch
      exact absurd rfl hch
  · intro x y hmem ha
    rw [hseed, drawOver_At, if_pos hmem, overPix_full_alpha _ _ ha]

/-- C9 witness: the amended theorem applied at concrete inputs. -/
theorem C9_assembler_witness :
    ((buildStep cfg0 resolveClear sC td1).1).Seed =
      drawOver sC.Seed (drawRect cfg0 td1) clearImg :=
  (C9_assembler cfg0 resolveClear sC td1 "id.jpg" clearImg (by decide) (by decide)
    (by rw [buildStep_clear_eval]) rfl).1

end Gosaic
